import Mathlib

/-!
Verification of the omnitype type model, constraint solver, type
environment and runtime trace against their specification.

The Rust source is shallowly embedded: `Type` becomes the inductive `Ty`
(strings are modelled as lists of naturals, i.e. their character codes,
and `u32` type-variable identifiers as `Nat`), `BTreeSet<Type>` becomes a
sorted duplicate-free list built by ordered insertion with the embedded
comparator, `HashMap` becomes a function or an association list, and
fallible operations return `Except`.
-/

set_option maxHeartbeats 1000000

/-- Comparison of naturals, mirroring `u32::cmp` / integer `Ord` in Rust. -/
def natCmp (a b : Nat) : Ordering :=
  if a < b then .lt else if a = b then .eq else .gt

/-- Lexicographic comparison of lists of naturals, mirroring `str::cmp`
(byte-wise lexicographic order on strings). -/
def natsCmp : List Nat → List Nat → Ordering
  | [], [] => .eq
  | [], _ :: _ => .lt
  | _ :: _, [] => .gt
  | c :: cs, d :: ds => (natCmp c d).then (natsCmp cs ds)

/-- The recursive type model: `Type` from `src/types/mod.rs`.  Constructor
order follows the Rust `enum` declaration. -/
inductive Ty where
  | unknown : Ty
  | none : Ty
  | any : Ty
  | bool : Ty
  | int : Ty
  | float : Ty
  | str : Ty
  | bytes : Ty
  | list : Ty → Ty
  | dict : Ty → Ty → Ty
  | tuple : List Ty → Ty
  | set : Ty → Ty
  | function : List Ty → Ty → Ty
  | union : List Ty → Ty
  | var : Nat → Ty
  | named : List Nat → Ty
  | generic : List Nat → List Ty → Ty

/-- The discriminant of a `Type` value: the position of its variant in the
declaration order (`mem::discriminant`, also the variant precedence used by
the `Ord` fallback). -/
def Ty.rank : Ty → Nat
  | .unknown => 0
  | .none => 1
  | .any => 2
  | .bool => 3
  | .int => 4
  | .float => 5
  | .str => 6
  | .bytes => 7
  | .list _ => 8
  | .dict _ _ => 9
  | .tuple _ => 10
  | .set _ => 11
  | .function _ _ => 12
  | .union _ => 13
  | .var _ => 14
  | .named _ => 15
  | .generic _ _ => 16

/-- The fallback arm of `impl Ord for Type`: the explicit ladder comparing
two types of different variants purely by variant precedence.  The arms are
embedded in the order they appear in the source (the final `Generic`/`_`
arm returning `Equal` is unreachable for differing variants, exactly as in
the source, because every non-`Generic` right-hand side is caught by an
earlier arm). -/
def Ty.variantCmp : Ty → Ty → Ordering
  | .unknown, _ => .lt
  | _, .unknown => .gt
  | .none, _ => .lt
  | _, .none => .gt
  | .any, _ => .lt
  | _, .any => .gt
  | .bool, _ => .lt
  | _, .bool => .gt
  | .int, _ => .lt
  | _, .int => .gt
  | .float, _ => .lt
  | _, .float => .gt
  | .str, _ => .lt
  | _, .str => .gt
  | .bytes, _ => .lt
  | _, .bytes => .gt
  | .list _, _ => .lt
  | _, .list _ => .gt
  | .dict _ _, _ => .lt
  | _, .dict _ _ => .gt
  | .tuple _, _ => .lt
  | _, .tuple _ => .gt
  | .set _, _ => .lt
  | _, .set _ => .gt
  | .function _ _, _ => .lt
  | _, .function _ _ => .gt
  | .union _, _ => .lt
  | _, .union _ => .gt
  | .var _, _ => .lt
  | _, .var _ => .gt
  | .named _, _ => .lt
  | _, .named _ => .gt
  | .generic _ _, _ => .eq

mutual

/-- `impl Ord for Type { fn cmp }`: same-variant pairs compare
structurally (`Ordering.then` is Rust's `match ord { Equal => next, ord =>
ord }`), and any pair of differing variants falls through to the variant
precedence ladder. -/
def Ty.cmp : Ty → Ty → Ordering
  | .unknown, .unknown => .eq
  | .none, .none => .eq
  | .any, .any => .eq
  | .bool, .bool => .eq
  | .int, .int => .eq
  | .float, .float => .eq
  | .str, .str => .eq
  | .bytes, .bytes => .eq
  | .list a, .list b => Ty.cmp a b
  | .dict ak av, .dict bk bv => (Ty.cmp ak bk).then (Ty.cmp av bv)
  | .tuple a, .tuple b => Ty.cmpList a b
  | .set a, .set b => Ty.cmp a b
  | .function ap ar, .function bp br => (Ty.cmpList ap bp).then (Ty.cmp ar br)
  | .union a, .union b => Ty.cmpList a b
  | .var a, .var b => natCmp a b
  | .named a, .named b => natsCmp a b
  | .generic an ap, .generic bn bp => (natsCmp an bn).then (Ty.cmpList ap bp)
  | a, b => Ty.variantCmp a b

/-- `Vec<Type>::cmp`: lexicographic comparison, a strict prefix being
smaller. -/
def Ty.cmpList : List Ty → List Ty → Ordering
  | [], [] => .eq
  | [], _ :: _ => .lt
  | _ :: _, [] => .gt
  | x :: xs, y :: ys => (Ty.cmp x y).then (Ty.cmpList xs ys)

end

mutual

/-- `impl PartialEq for Type { fn eq }`: composite variants compare
structurally; the fallback arm compares discriminants. -/
def Ty.eqv : Ty → Ty → Bool
  | .list a, .list b => Ty.eqv a b
  | .dict ak av, .dict bk bv => Ty.eqv ak bk && Ty.eqv av bv
  | .tuple a, .tuple b => Ty.eqvList a b
  | .set a, .set b => Ty.eqv a b
  | .function ap ar, .function bp br => Ty.eqvList ap bp && Ty.eqv ar br
  | .union a, .union b => Ty.eqvList a b
  | .var a, .var b => a == b
  | .named a, .named b => a == b
  | .generic an ap, .generic bn bp => an == bn && Ty.eqvList ap bp
  | a, b => a.rank == b.rank

/-- `Vec<Type>` equality: same length and element-wise equal. -/
def Ty.eqvList : List Ty → List Ty → Bool
  | [], [] => true
  | x :: xs, y :: ys => Ty.eqv x y && Ty.eqvList xs ys
  | _, _ => false

end

example : Ty.cmp .int .str = .lt := by decide
example : Ty.cmp (.list .int) (.list .int) = .eq := by decide
example : Ty.cmp (.tuple [.int]) (.tuple [.int, .str]) = .lt := by decide
example : Ty.cmp (.generic [1] [.int]) (.generic [1] [.int]) = .eq := by decide
example : Ty.eqv (.dict .int .str) (.dict .int .str) = true := by decide
example : Ty.eqv .unknown .none = false := by decide

theorem natCmp_eq_iff (a b : Nat) : natCmp a b = .eq ↔ a = b := by
  unfold natCmp
  split_ifs with h1 h2 <;> simp_all
  omega

theorem natCmp_lt_iff (a b : Nat) : natCmp a b = .lt ↔ a < b := by
  unfold natCmp
  split_ifs with h1 h2 <;> simp_all

theorem natCmp_swap (a b : Nat) : (natCmp a b).swap = natCmp b a := by
  unfold natCmp
  rcases Nat.lt_trichotomy a b with h | h | h
  · rw [if_pos h, if_neg (by omega), if_neg (by omega)]; rfl
  · rw [if_neg (by omega), if_pos h, if_neg (by omega), if_pos h.symm]; rfl
  · rw [if_neg (by omega), if_neg (by omega), if_pos h]; rfl

theorem natsCmp_eq_iff : ∀ (a b : List Nat), natsCmp a b = .eq ↔ a = b
  | [], [] => by simp [natsCmp]
  | [], _ :: _ => by simp [natsCmp]
  | _ :: _, [] => by simp [natsCmp]
  | c :: cs, d :: ds => by
    simp only [natsCmp, Ordering.then_eq_eq, natCmp_eq_iff, natsCmp_eq_iff cs ds,
      List.cons.injEq]

theorem natsCmp_swap : ∀ (a b : List Nat), (natsCmp a b).swap = natsCmp b a
  | [], [] => rfl
  | [], _ :: _ => rfl
  | _ :: _, [] => rfl
  | c :: cs, d :: ds => by
    simp only [natsCmp, Ordering.swap_then, natCmp_swap, natsCmp_swap cs ds]

theorem natsCmp_lt_trans :
    ∀ {a b c : List Nat}, natsCmp a b = .lt → natsCmp b c = .lt → natsCmp a c = .lt
  | [], _ :: _, _ :: _, _, _ => rfl
  | [], [], _, h, _ => nomatch h
  | _ :: _, [], _, h, _ => nomatch h
  | _ :: _, _ :: _, [], _, h => nomatch h
  | a :: as', b :: bs, c :: cs, h1, h2 => by
    simp only [natsCmp, Ordering.then_eq_lt, natCmp_eq_iff, natCmp_lt_iff] at h1 h2 ⊢
    rcases h1 with h1 | ⟨rfl, h1⟩
    · rcases h2 with h2 | ⟨rfl, h2⟩
      · exact Or.inl (Nat.lt_trans h1 h2)
      · exact Or.inl h1
    · rcases h2 with h2 | ⟨rfl, h2⟩
      · exact Or.inl h2
      · exact Or.inr ⟨rfl, natsCmp_lt_trans h1 h2⟩

theorem eqv_iff_strong : ∀ n : Nat,
    (∀ a b : Ty, sizeOf a ≤ n → (Ty.eqv a b = true ↔ a = b)) ∧
    (∀ xs ys : List Ty, sizeOf xs ≤ n → (Ty.eqvList xs ys = true ↔ xs = ys)) := by
  intro n
  induction n with
  | zero =>
    constructor
    · intro a b h; exact absurd h (by cases a <;> simp)
    · intro xs ys h; exact absurd h (by cases xs <;> simp)
  | succ n ih =>
    obtain ⟨ihT, ihL⟩ := ih
    constructor
    · intro a b ha
      cases a <;> cases b
      case list.list =>
        rename_i x y
        have hx : sizeOf x ≤ n := by simp at ha; omega
        have h2 := ihT x y hx
        exact ⟨fun h => by rw [h2.mp h], fun h => h2.mpr (by injection h)⟩
      case set.set =>
        rename_i x y
        have hx : sizeOf x ≤ n := by simp at ha; omega
        have h2 := ihT x y hx
        exact ⟨fun h => by rw [h2.mp h], fun h => h2.mpr (by injection h)⟩
      case tuple.tuple =>
        rename_i xs ys
        have hxs : sizeOf xs ≤ n := by simp at ha; omega
        have h2 := ihL xs ys hxs
        exact ⟨fun h => by rw [h2.mp h], fun h => h2.mpr (by injection h)⟩
      case union.union =>
        rename_i xs ys
        have hxs : sizeOf xs ≤ n := by simp at ha; omega
        have h2 := ihL xs ys hxs
        exact ⟨fun h => by rw [h2.mp h], fun h => h2.mpr (by injection h)⟩
      case var.var =>
        rename_i x y
        exact ⟨fun h => by rw [eq_of_beq h],
               fun h => by injection h with e; subst e; exact (by simp : (x == x) = true)⟩
      case named.named =>
        rename_i x y
        exact ⟨fun h => by rw [eq_of_beq h],
               fun h => by injection h with e; subst e; exact (by simp : (x == x) = true)⟩
      case dict.dict =>
        rename_i ak av bk bv
        have hk : sizeOf ak ≤ n := by simp at ha; omega
        have hv : sizeOf av ≤ n := by simp at ha; omega
        rw [show Ty.eqv (.dict ak av) (.dict bk bv) = (Ty.eqv ak bk && Ty.eqv av bv) from rfl,
          Bool.and_eq_true, ihT ak bk hk, ihT av bv hv]
        simp
      case function.function =>
        rename_i ap ar bp br
        have hp : sizeOf ap ≤ n := by simp at ha; omega
        have hr : sizeOf ar ≤ n := by simp at ha; omega
        rw [show Ty.eqv (.function ap ar) (.function bp br) =
            (Ty.eqvList ap bp && Ty.eqv ar br) from rfl,
          Bool.and_eq_true, ihL ap bp hp, ihT ar br hr]
        simp
      case generic.generic =>
        rename_i an ap bn bp
        have hp : sizeOf ap ≤ n := by simp at ha; omega
        rw [show Ty.eqv (.generic an ap) (.generic bn bp) =
            (an == bn && Ty.eqvList ap bp) from rfl,
          Bool.and_eq_true, ihL ap bp hp]
        simp
      all_goals first
        | exact iff_of_true rfl rfl
        | exact iff_of_false (fun h => nomatch h) (fun h => nomatch h)
    · intro xs ys hxs
      cases xs <;> cases ys
      · exact iff_of_true rfl rfl
      · exact iff_of_false (fun h => nomatch h) (fun h => nomatch h)
      · exact iff_of_false (fun h => nomatch h) (fun h => nomatch h)
      · rename_i x xs' y ys'
        have hx : sizeOf x ≤ n := by simp at hxs; omega
        have hxs' : sizeOf xs' ≤ n := by simp at hxs; omega
        rw [show Ty.eqvList (x :: xs') (y :: ys') = (Ty.eqv x y && Ty.eqvList xs' ys') from rfl,
          Bool.and_eq_true, ihT x y hx, ihL xs' ys' hxs']
        simp

theorem Ty.eqv_iff (a b : Ty) : Ty.eqv a b = true ↔ a = b :=
  (eqv_iff_strong (sizeOf a)).1 a b le_rfl

theorem Ty.eqvList_iff (xs ys : List Ty) : Ty.eqvList xs ys = true ↔ xs = ys :=
  (eqv_iff_strong (sizeOf xs)).2 xs ys le_rfl

instance : DecidableEq Ty := fun a b => decidable_of_iff _ (Ty.eqv_iff a b)

theorem cmp_eq_iff_strong : ∀ n : Nat,
    (∀ a b : Ty, sizeOf a ≤ n → (Ty.cmp a b = .eq ↔ a = b)) ∧
    (∀ xs ys : List Ty, sizeOf xs ≤ n → (Ty.cmpList xs ys = .eq ↔ xs = ys)) := by
  intro n
  induction n with
  | zero =>
    constructor
    · intro a b h; exact absurd h (by cases a <;> simp)
    · intro xs ys h; exact absurd h (by cases xs <;> simp)
  | succ n ih =>
    obtain ⟨ihT, ihL⟩ := ih
    constructor
    · intro a b ha
      cases a <;> cases b
      case list.list =>
        rename_i x y
        have hx : sizeOf x ≤ n := by simp at ha; omega
        have h2 := ihT x y hx
        exact ⟨fun h => by rw [h2.mp h], fun h => h2.mpr (by injection h)⟩
      case set.set =>
        rename_i x y
        have hx : sizeOf x ≤ n := by simp at ha; omega
        have h2 := ihT x y hx
        exact ⟨fun h => by rw [h2.mp h], fun h => h2.mpr (by injection h)⟩
      case tuple.tuple =>
        rename_i xs ys
        have hxs : sizeOf xs ≤ n := by simp at ha; omega
        have h2 := ihL xs ys hxs
        exact ⟨fun h => by rw [h2.mp h], fun h => h2.mpr (by injection h)⟩
      case union.union =>
        rename_i xs ys
        have hxs : sizeOf xs ≤ n := by simp at ha; omega
        have h2 := ihL xs ys hxs
        exact ⟨fun h => by rw [h2.mp h], fun h => h2.mpr (by injection h)⟩
      case var.var =>
        rename_i x y
        exact ⟨fun h => by rw [(natCmp_eq_iff x y).mp h],
               fun h => by injection h with e; subst e; exact (natCmp_eq_iff x x).mpr rfl⟩
      case named.named =>
        rename_i x y
        exact ⟨fun h => by rw [(natsCmp_eq_iff x y).mp h],
               fun h => by injection h with e; subst e; exact (natsCmp_eq_iff x x).mpr rfl⟩
      case dict.dict =>
        rename_i ak av bk bv
        have hk : sizeOf ak ≤ n := by simp at ha; omega
        have hv : sizeOf av ≤ n := by simp at ha; omega
        rw [show Ty.cmp (.dict ak av) (.dict bk bv) = (Ty.cmp ak bk).then (Ty.cmp av bv) from rfl,
          Ordering.then_eq_eq, ihT ak bk hk, ihT av bv hv]
        simp
      case function.function =>
        rename_i ap ar bp br
        have hp : sizeOf ap ≤ n := by simp at ha; omega
        have hr : sizeOf ar ≤ n := by simp at ha; omega
        rw [show Ty.cmp (.function ap ar) (.function bp br) =
            (Ty.cmpList ap bp).then (Ty.cmp ar br) from rfl,
          Ordering.then_eq_eq, ihL ap bp hp, ihT ar br hr]
        simp
      case generic.generic =>
        rename_i an ap bn bp
        have hp : sizeOf ap ≤ n := by simp at ha; omega
        rw [show Ty.cmp (.generic an ap) (.generic bn bp) =
            (natsCmp an bn).then (Ty.cmpList ap bp) from rfl,
          Ordering.then_eq_eq, natsCmp_eq_iff an bn, ihL ap bp hp]
        simp
      all_goals first
        | exact iff_of_true rfl rfl
        | exact iff_of_false (fun h => nomatch h) (fun h => nomatch h)
    · intro xs ys hxs
      cases xs <;> cases ys
      · exact iff_of_true rfl rfl
      · exact iff_of_false (fun h => nomatch h) (fun h => nomatch h)
      · exact iff_of_false (fun h => nomatch h) (fun h => nomatch h)
      · rename_i x xs' y ys'
        have hx : sizeOf x ≤ n := by simp at hxs; omega
        have hxs' : sizeOf xs' ≤ n := by simp at hxs; omega
        rw [show Ty.cmpList (x :: xs') (y :: ys') = (Ty.cmp x y).then (Ty.cmpList xs' ys')
            from rfl,
          Ordering.then_eq_eq, ihT x y hx, ihL xs' ys' hxs']
        simp

theorem Ty.cmp_eq_iff (a b : Ty) : Ty.cmp a b = .eq ↔ a = b :=
  (cmp_eq_iff_strong (sizeOf a)).1 a b le_rfl

theorem Ty.cmpList_eq_iff (xs ys : List Ty) : Ty.cmpList xs ys = .eq ↔ xs = ys :=
  (cmp_eq_iff_strong (sizeOf xs)).2 xs ys le_rfl

theorem Ty.cmp_refl (a : Ty) : Ty.cmp a a = .eq := (Ty.cmp_eq_iff a a).mpr rfl

theorem cmp_swap_strong : ∀ n : Nat,
    (∀ a b : Ty, sizeOf a ≤ n → (Ty.cmp a b).swap = Ty.cmp b a) ∧
    (∀ xs ys : List Ty, sizeOf xs ≤ n → (Ty.cmpList xs ys).swap = Ty.cmpList ys xs) := by
  intro n
  induction n with
  | zero =>
    constructor
    · intro a b h; exact absurd h (by cases a <;> simp)
    · intro xs ys h; exact absurd h (by cases xs <;> simp)
  | succ n ih =>
    obtain ⟨ihT, ihL⟩ := ih
    constructor
    · intro a b ha
      cases a <;> cases b
      case list.list =>
        rename_i x y
        exact ihT x y (by simp at ha; omega)
      case set.set =>
        rename_i x y
        exact ihT x y (by simp at ha; omega)
      case tuple.tuple =>
        rename_i xs ys
        exact ihL xs ys (by simp at ha; omega)
      case union.union =>
        rename_i xs ys
        exact ihL xs ys (by simp at ha; omega)
      case var.var =>
        rename_i x y
        exact natCmp_swap x y
      case named.named =>
        rename_i x y
        exact natsCmp_swap x y
      case dict.dict =>
        rename_i ak av bk bv
        have hk : sizeOf ak ≤ n := by simp at ha; omega
        have hv : sizeOf av ≤ n := by simp at ha; omega
        rw [show Ty.cmp (.dict ak av) (.dict bk bv) = (Ty.cmp ak bk).then (Ty.cmp av bv) from rfl,
          show Ty.cmp (.dict bk bv) (.dict ak av) = (Ty.cmp bk ak).then (Ty.cmp bv av) from rfl,
          Ordering.swap_then, ihT ak bk hk, ihT av bv hv]
      case function.function =>
        rename_i ap ar bp br
        have hp : sizeOf ap ≤ n := by simp at ha; omega
        have hr : sizeOf ar ≤ n := by simp at ha; omega
        rw [show Ty.cmp (.function ap ar) (.function bp br) =
            (Ty.cmpList ap bp).then (Ty.cmp ar br) from rfl,
          show Ty.cmp (.function bp br) (.function ap ar) =
            (Ty.cmpList bp ap).then (Ty.cmp br ar) from rfl,
          Ordering.swap_then, ihL ap bp hp, ihT ar br hr]
      case generic.generic =>
        rename_i an ap bn bp
        have hp : sizeOf ap ≤ n := by simp at ha; omega
        rw [show Ty.cmp (.generic an ap) (.generic bn bp) =
            (natsCmp an bn).then (Ty.cmpList ap bp) from rfl,
          show Ty.cmp (.generic bn bp) (.generic an ap) =
            (natsCmp bn an).then (Ty.cmpList bp ap) from rfl,
          Ordering.swap_then, natsCmp_swap an bn, ihL ap bp hp]
      all_goals rfl
    · intro xs ys hxs
      cases xs <;> cases ys
      · rfl
      · rfl
      · rfl
      · rename_i x xs' y ys'
        have hx : sizeOf x ≤ n := by simp at hxs; omega
        have hxs' : sizeOf xs' ≤ n := by simp at hxs; omega
        rw [show Ty.cmpList (x :: xs') (y :: ys') = (Ty.cmp x y).then (Ty.cmpList xs' ys')
            from rfl,
          show Ty.cmpList (y :: ys') (x :: xs') = (Ty.cmp y x).then (Ty.cmpList ys' xs')
            from rfl,
          Ordering.swap_then, ihT x y hx, ihL xs' ys' hxs']

theorem Ty.cmp_swap (a b : Ty) : (Ty.cmp a b).swap = Ty.cmp b a :=
  (cmp_swap_strong (sizeOf a)).1 a b le_rfl

theorem Ty.cmpList_swap (xs ys : List Ty) : (Ty.cmpList xs ys).swap = Ty.cmpList ys xs :=
  (cmp_swap_strong (sizeOf xs)).2 xs ys le_rfl

/-- On types of differing variants, `cmp` agrees with the comparison of
variant precedences. -/
theorem Ty.cmp_of_rank_ne (a b : Ty) (h : a.rank ≠ b.rank) :
    Ty.cmp a b = natCmp a.rank b.rank := by
  cases a <;> cases b <;> first | exact absurd rfl h | rfl

theorem natCmp_lt_trans {a b c : Nat} (h1 : natCmp a b = .lt) (h2 : natCmp b c = .lt) :
    natCmp a c = .lt := by
  rw [natCmp_lt_iff] at h1 h2 ⊢
  omega

theorem cmp_trans_strong : ∀ n : Nat,
    (∀ a b c : Ty, sizeOf a ≤ n → Ty.cmp a b = .lt → Ty.cmp b c = .lt → Ty.cmp a c = .lt) ∧
    (∀ xs ys zs : List Ty, sizeOf xs ≤ n → Ty.cmpList xs ys = .lt → Ty.cmpList ys zs = .lt →
      Ty.cmpList xs zs = .lt) := by
  intro n
  induction n with
  | zero =>
    constructor
    · intro a b c h _ _; exact absurd h (by cases a <;> simp)
    · intro xs ys zs h _ _; exact absurd h (by cases xs <;> simp)
  | succ n ih =>
    obtain ⟨ihT, ihL⟩ := ih
    constructor
    · intro a b c ha h1 h2
      rcases eq_or_ne a.rank b.rank with hab | hab
      · rcases eq_or_ne b.rank c.rank with hbc | hbc
        · cases a <;> cases b <;> simp [Ty.rank] at hab
          all_goals (cases c <;> simp [Ty.rank] at hbc)
          case list.list.list =>
            rename_i x y z
            exact ihT x y z (by simp at ha; omega) h1 h2
          case set.set.set =>
            rename_i x y z
            exact ihT x y z (by simp at ha; omega) h1 h2
          case tuple.tuple.tuple =>
            rename_i xs ys zs
            exact ihL xs ys zs (by simp at ha; omega) h1 h2
          case union.union.union =>
            rename_i xs ys zs
            exact ihL xs ys zs (by simp at ha; omega) h1 h2
          case var.var.var =>
            exact natCmp_lt_trans h1 h2
          case named.named.named =>
            exact natsCmp_lt_trans h1 h2
          case dict.dict.dict =>
            rename_i ak av bk bv ck cv
            have hak : sizeOf ak ≤ n := by simp at ha; omega
            have hav : sizeOf av ≤ n := by simp at ha; omega
            replace h1 : (Ty.cmp ak bk).then (Ty.cmp av bv) = .lt := h1
            replace h2 : (Ty.cmp bk ck).then (Ty.cmp bv cv) = .lt := h2
            show (Ty.cmp ak ck).then (Ty.cmp av cv) = .lt
            rw [Ordering.then_eq_lt] at h1 h2 ⊢
            rcases h1 with h1k | ⟨h1k, h1v⟩ <;> rcases h2 with h2k | ⟨h2k, h2v⟩
            · exact Or.inl (ihT ak bk ck hak h1k h2k)
            · have e := (Ty.cmp_eq_iff bk ck).mp h2k; subst e; exact Or.inl h1k
            · have e := (Ty.cmp_eq_iff ak bk).mp h1k; subst e; exact Or.inl h2k
            · have e1 := (Ty.cmp_eq_iff ak bk).mp h1k; subst e1
              have e2 := (Ty.cmp_eq_iff ak ck).mp h2k; subst e2
              exact Or.inr ⟨Ty.cmp_refl ak, ihT av bv cv hav h1v h2v⟩
          case function.function.function =>
            rename_i ap ar bp br cp cr
            have hap : sizeOf ap ≤ n := by simp at ha; omega
            have har : sizeOf ar ≤ n := by simp at ha; omega
            replace h1 : (Ty.cmpList ap bp).then (Ty.cmp ar br) = .lt := h1
            replace h2 : (Ty.cmpList bp cp).then (Ty.cmp br cr) = .lt := h2
            show (Ty.cmpList ap cp).then (Ty.cmp ar cr) = .lt
            rw [Ordering.then_eq_lt] at h1 h2 ⊢
            rcases h1 with h1p | ⟨h1p, h1r⟩ <;> rcases h2 with h2p | ⟨h2p, h2r⟩
            · exact Or.inl (ihL ap bp cp hap h1p h2p)
            · have e := (Ty.cmpList_eq_iff bp cp).mp h2p; subst e; exact Or.inl h1p
            · have e := (Ty.cmpList_eq_iff ap bp).mp h1p; subst e; exact Or.inl h2p
            · have e1 := (Ty.cmpList_eq_iff ap bp).mp h1p; subst e1
              have e2 := (Ty.cmpList_eq_iff ap cp).mp h2p; subst e2
              exact Or.inr ⟨(Ty.cmpList_eq_iff ap ap).mpr rfl, ihT ar br cr har h1r h2r⟩
          case generic.generic.generic =>
            rename_i an ap bn bp cn cp
            have hap : sizeOf ap ≤ n := by simp at ha; omega
            replace h1 : (natsCmp an bn).then (Ty.cmpList ap bp) = .lt := h1
            replace h2 : (natsCmp bn cn).then (Ty.cmpList bp cp) = .lt := h2
            show (natsCmp an cn).then (Ty.cmpList ap cp) = .lt
            rw [Ordering.then_eq_lt] at h1 h2 ⊢
            rcases h1 with h1n | ⟨h1n, h1p⟩ <;> rcases h2 with h2n | ⟨h2n, h2p⟩
            · exact Or.inl (natsCmp_lt_trans h1n h2n)
            · have e := (natsCmp_eq_iff bn cn).mp h2n; subst e; exact Or.inl h1n
            · have e := (natsCmp_eq_iff an bn).mp h1n; subst e; exact Or.inl h2n
            · have e1 := (natsCmp_eq_iff an bn).mp h1n; subst e1
              have e2 := (natsCmp_eq_iff an cn).mp h2n; subst e2
              exact Or.inr ⟨(natsCmp_eq_iff an an).mpr rfl, ihL ap bp cp hap h1p h2p⟩
          all_goals exact nomatch h1
        · have hbc' : b.rank < c.rank := by
            have h := Ty.cmp_of_rank_ne b c hbc
            rw [h, natCmp_lt_iff] at h2
            exact h2
          have hac : a.rank ≠ c.rank := by omega
          rw [Ty.cmp_of_rank_ne a c hac, natCmp_lt_iff]
          omega
      · have hab' : a.rank < b.rank := by
          have h := Ty.cmp_of_rank_ne a b hab
          rw [h, natCmp_lt_iff] at h1
          exact h1
        rcases eq_or_ne b.rank c.rank with hbc | hbc
        · have hac : a.rank ≠ c.rank := by omega
          rw [Ty.cmp_of_rank_ne a c hac, natCmp_lt_iff]
          omega
        · have hbc' : b.rank < c.rank := by
            have h := Ty.cmp_of_rank_ne b c hbc
            rw [h, natCmp_lt_iff] at h2
            exact h2
          have hac : a.rank ≠ c.rank := by omega
          rw [Ty.cmp_of_rank_ne a c hac, natCmp_lt_iff]
          omega
    · intro xs ys zs hxs h1 h2
      cases xs <;> cases ys <;> cases zs
      case cons.cons.cons =>
        rename_i x xs' y ys' z zs'
        have hx : sizeOf x ≤ n := by simp at hxs; omega
        have hxs' : sizeOf xs' ≤ n := by simp at hxs; omega
        replace h1 : (Ty.cmp x y).then (Ty.cmpList xs' ys') = .lt := h1
        replace h2 : (Ty.cmp y z).then (Ty.cmpList ys' zs') = .lt := h2
        show (Ty.cmp x z).then (Ty.cmpList xs' zs') = .lt
        rw [Ordering.then_eq_lt] at h1 h2 ⊢
        rcases h1 with h1h | ⟨h1h, h1t⟩ <;> rcases h2 with h2h | ⟨h2h, h2t⟩
        · exact Or.inl (ihT x y z hx h1h h2h)
        · have e := (Ty.cmp_eq_iff y z).mp h2h; subst e; exact Or.inl h1h
        · have e := (Ty.cmp_eq_iff x y).mp h1h; subst e; exact Or.inl h2h
        · have e1 := (Ty.cmp_eq_iff x y).mp h1h; subst e1
          have e2 := (Ty.cmp_eq_iff x z).mp h2h; subst e2
          exact Or.inr ⟨Ty.cmp_refl x, ihL xs' ys' zs' hxs' h1t h2t⟩
      case nil.nil.nil => exact absurd h1 (by simp [Ty.cmpList])
      case nil.nil.cons => rfl
      case nil.cons.nil => exact absurd h2 (by simp [Ty.cmpList])
      case nil.cons.cons => rfl
      case cons.nil.nil => exact absurd h1 (by simp [Ty.cmpList])
      case cons.nil.cons => exact absurd h1 (by simp [Ty.cmpList])
      case cons.cons.nil => exact absurd h2 (by simp [Ty.cmpList])

theorem Ty.cmp_lt_trans {a b c : Ty} (h1 : Ty.cmp a b = .lt) (h2 : Ty.cmp b c = .lt) :
    Ty.cmp a c = .lt :=
  (cmp_trans_strong (sizeOf a)).1 a b c le_rfl h1 h2

theorem Ty.cmpList_lt_trans {xs ys zs : List Ty} (h1 : Ty.cmpList xs ys = .lt)
    (h2 : Ty.cmpList ys zs = .lt) : Ty.cmpList xs zs = .lt :=
  (cmp_trans_strong (sizeOf xs)).2 xs ys zs le_rfl h1 h2

/-- The strict order induced by the embedded comparator. -/
def tyLt (a b : Ty) : Prop := Ty.cmp a b = .lt

instance : DecidableRel tyLt := fun a b => inferInstanceAs (Decidable (Ty.cmp a b = .lt))

instance : BEq Ty := ⟨Ty.eqv⟩

instance : LawfulBEq Ty where
  eq_of_beq h := (Ty.eqv_iff _ _).mp h
  rfl := (Ty.eqv_iff _ _).mpr rfl

/-- Whether a type is a `Union`. -/
def Ty.isUnion : Ty → Bool
  | .union _ => true
  | _ => false

/-- The member list of a `Union`, `[]` for any other type. -/
def Ty.unionMembers : Ty → List Ty
  | .union ms => ms
  | _ => []

/-- Ordered insertion into a sorted duplicate-free list: the model of
`BTreeSet<Type>::insert` (an element comparing `Equal` to one already
present is not inserted again). -/
def insertTy (t : Ty) : List Ty → List Ty
  | [] => [t]
  | x :: xs =>
    match Ty.cmp t x with
    | .lt => t :: x :: xs
    | .eq => x :: xs
    | .gt => x :: insertTy t xs

/-- The loop body of `union_of`: a `Union` argument has each of its members
inserted into the set, any other argument is inserted itself. -/
def insertFlat (s : List Ty) (t : Ty) : List Ty :=
  match t with
  | .union nested => nested.foldl (fun s n => insertTy n s) s
  | t => insertTy t s

/-- The return step of `union_of`: a one-element set collapses to its
element (`unique_types.len() == 1`), anything else is wrapped in `Union`. -/
def collapse : List Ty → Ty
  | [t] => t
  | unique => .union unique

/-- `Type::union_of` from `src/types/mod.rs`: `Unknown` on the empty input;
otherwise each argument is flattened one level into a `BTreeSet` (modelled
as the sorted duplicate-free list built by `insertTy`) and the resulting
ordered sequence is collapsed. -/
def Ty.union_of (types : List Ty) : Ty :=
  if types.isEmpty then .unknown
  else collapse (types.foldl insertFlat [])

/-- The one-level flattening `union_of` applies to its input: a `Union`
argument contributes its members, any other argument contributes itself. -/
def expandOne : Ty → List Ty
  | .union nested => nested
  | t => [t]

def flattenOnce (types : List Ty) : List Ty := types.flatMap expandOne

/-- `TypeEnv` from `src/types/mod.rs`: a scope of bindings plus an optional
parent scope owned by value.  The `HashMap<String, Type>` is modelled as an
association list whose insert replaces the binding of an existing key. -/
inductive TypeEnv where
  | mk : List (String × Ty) → Option TypeEnv → TypeEnv

def TypeEnv.bindings : TypeEnv → List (String × Ty)
  | .mk b _ => b

def TypeEnv.parent : TypeEnv → Option TypeEnv
  | .mk _ p => p

/-- `HashMap::get`. -/
def mapGet : List (String × Ty) → String → Option Ty
  | [], _ => Option.none
  | (k, v) :: rest, name => if k = name then some v else mapGet rest name

/-- `HashMap::insert`: replaces the binding of an existing key and keeps
the other bindings. -/
def mapInsert : List (String × Ty) → String → Ty → List (String × Ty)
  | [], name, ty => [(name, ty)]
  | (k, v) :: rest, name, ty =>
    if k = name then (k, ty) :: rest else (k, v) :: mapInsert rest name ty

/-- `TypeEnv::new`. -/
def TypeEnv.new : TypeEnv := .mk [] Option.none

/-- `TypeEnv::nested`: a fresh scope owning the given environment. -/
def TypeEnv.nested (env : TypeEnv) : TypeEnv := .mk [] (some env)

/-- `TypeEnv::lookup`: the current scope's map first, else the parent
chain, else nothing. -/
def TypeEnv.lookup : TypeEnv → String → Option Ty
  | .mk b p, name =>
    match mapGet b name with
    | some t => some t
    | Option.none =>
      match p with
      | some par => par.lookup name
      | Option.none => Option.none

/-- `TypeEnv::bind`: inserts into the current scope only; returns the prior
binding of that scope together with the updated environment. -/
def TypeEnv.bind : TypeEnv → String → Ty → Option Ty × TypeEnv
  | .mk b p, name, ty => (mapGet b name, .mk (mapInsert b name ty) p)

/-- `TypeTrace` from `src/tracer/mod.rs`; the `variables` and `functions`
`HashMap`s are modelled as total functions with the `or_default` values. -/
structure TypeTrace where
  variablesMap : String → List Ty
  functionsMap : String → List (List Ty) × List Ty

/-- `TypeTrace::default()`. -/
def TypeTrace.empty : TypeTrace := ⟨fun _ => [], fun _ => ([], [])⟩

/-- `TypeTrace::add_variable`: appends the observation to the variable's
entry, never overwriting earlier observations. -/
def TypeTrace.add_variable (tr : TypeTrace) (name : String) (ty : Ty) : TypeTrace :=
  { tr with variablesMap := fun n =>
      if n = name then tr.variablesMap n ++ [ty] else tr.variablesMap n }

/-- The loop of `TypeTrace::get_variable_types`: keep the first occurrence
of each distinct type (`HashSet::insert` reports whether the element was
new; `contains` uses the embedded `PartialEq`). -/
def dedupFirst (seen : List Ty) : List Ty → List Ty
  | [] => []
  | t :: ts => if seen.contains t then dedupFirst seen ts else t :: dedupFirst (t :: seen) ts

/-- `TypeTrace::get_variable_types`. -/
def TypeTrace.get_variable_types (tr : TypeTrace) (name : String) : List Ty :=
  dedupFirst [] (tr.variablesMap name)

/-- Modelled from the spec: the final resolved type reported for a
variable.  No code under `src/` combines the accumulated observations of a
`TypeTrace` into one reported type (`union_of` has no caller there); §6 of
the spec requires using `union_of` over the repeated observations rather
than overwriting. -/
def resolvedVariableType (tr : TypeTrace) (name : String) : Ty :=
  Ty.union_of (tr.get_variable_types name)

/-- `Constraint` from `src/constraint_solver/mod.rs`. -/
inductive Constraint where
  | equal : Ty → Ty → Constraint
  | subtype : Ty → Ty → Constraint
  | occurs : Nat → Ty → Constraint

/-- The crate error type (`src/error.rs`); the variants `Io`, `Parser`,
`Type`, `Argument`, `NotImplemented` and `Other` each carry a rendered
message. -/
inductive OError where
  | io : String → OError
  | parseErr : String → OError
  | typeErr : String → OError
  | argument : String → OError
  | notImplemented : String → OError
  | other : String → OError

/-- `ConstraintSolver` state: variable counter, worklist, substitution
(`HashMap<TypeVar, Type>` as an association list). -/
structure ConstraintSolver where
  next_var : Nat
  constraints : List Constraint
  substitution : List (Nat × Ty)

/-- `ConstraintSolver::new`. -/
def ConstraintSolver.new : ConstraintSolver := ⟨0, [], []⟩

/-- `fresh_var`: returns the fresh variable and bumps the counter. -/
def ConstraintSolver.fresh_var (s : ConstraintSolver) : Nat × ConstraintSolver :=
  (s.next_var, { s with next_var := s.next_var + 1 })

/-- `add_constraint`: pushes onto the worklist vector. -/
def ConstraintSolver.add_constraint (s : ConstraintSolver) (c : Constraint) : ConstraintSolver :=
  { s with constraints := s.constraints ++ [c] }

/-- `unify` — a `TODO` stub in the source: returns `Ok(())` without
touching the solver. -/
def ConstraintSolver.unify (s : ConstraintSolver) (_t1 _t2 : Ty) :
    Except OError ConstraintSolver := .ok s

/-- `subtype` — a `TODO` stub in the source. -/
def ConstraintSolver.subtype (s : ConstraintSolver) (_t1 _t2 : Ty) :
    Except OError ConstraintSolver := .ok s

/-- `occurs_check` — a `TODO` stub in the source. -/
def ConstraintSolver.occurs_check (s : ConstraintSolver) (_v : Nat) (_t : Ty) :
    Except OError ConstraintSolver := .ok s

/-- `solve_constraint`: dispatches on the constraint kind. -/
def ConstraintSolver.solve_constraint (s : ConstraintSolver) (c : Constraint) :
    Except OError ConstraintSolver :=
  match c with
  | .equal t1 t2 => s.unify t1 t2
  | .subtype t1 t2 => s.subtype t1 t2
  | .occurs v ty => s.occurs_check v ty

/-- The `while let Some(constraint) = self.constraints.pop()` loop of
`solve`.  `Vec::pop` removes from the back, so the worklist is walked in
reverse insertion order; the solver returned by each `solve_constraint`
call is threaded onward. -/
def ConstraintSolver.solveGo : List Constraint → ConstraintSolver →
    Except OError (List (Nat × Ty))
  | [], s => .ok s.substitution
  | c :: rest, s =>
    match s.solve_constraint c with
    | .ok s2 => ConstraintSolver.solveGo rest s2
    | .error e => .error e

/-- `solve`: drains the worklist and returns the substitution or the first
failure. -/
def ConstraintSolver.solve (s : ConstraintSolver) : Except OError (List (Nat × Ty)) :=
  ConstraintSolver.solveGo s.constraints.reverse { s with constraints := [] }

theorem tyLt_irrefl (a : Ty) : ¬ tyLt a a := by
  intro h
  have h2 : Ty.cmp a a = .lt := h
  rw [Ty.cmp_refl] at h2
  exact absurd h2 (by decide)

theorem tyLt_asymm {a b : Ty} (h : tyLt a b) : ¬ tyLt b a := by
  intro h2
  have hs := Ty.cmp_swap a b
  have h' : Ty.cmp a b = .lt := h
  have h2' : Ty.cmp b a = .lt := h2
  rw [h', h2'] at hs
  exact absurd hs (by decide)

theorem mem_insertTy (t y : Ty) : ∀ l : List Ty, y ∈ insertTy t l ↔ y = t ∨ y ∈ l
  | [] => by simp [insertTy]
  | x :: xs => by
    rcases h : Ty.cmp t x with _ | _ | _
    · simp [insertTy, h]
    · have e : t = x := (Ty.cmp_eq_iff t x).mp h
      subst e
      simp [insertTy, h]
      try tauto
    · simp [insertTy, h, mem_insertTy t y xs]
      try tauto

theorem pairwise_insertTy (t : Ty) :
    ∀ l : List Ty, l.Pairwise tyLt → (insertTy t l).Pairwise tyLt
  | [], _ => by simp [insertTy, tyLt]
  | x :: xs, hp => by
    obtain ⟨hx, hxs⟩ := List.pairwise_cons.mp hp
    rcases h : Ty.cmp t x with _ | _ | _
    · simp only [insertTy, h]
      refine List.pairwise_cons.mpr ⟨?_, hp⟩
      intro y hy
      rcases List.mem_cons.mp hy with rfl | hy2
      · exact h
      · exact Ty.cmp_lt_trans h (hx y hy2)
    · simpa only [insertTy, h] using hp
    · simp only [insertTy, h]
      refine List.pairwise_cons.mpr ⟨?_, pairwise_insertTy t xs hxs⟩
      intro y hy
      rcases (mem_insertTy t y xs).mp hy with rfl | hy2
      · have hs := Ty.cmp_swap y x
        rw [h] at hs
        exact hs.symm
      · exact hx y hy2

theorem sorted_ext : ∀ l1 l2 : List Ty, l1.Pairwise tyLt → l2.Pairwise tyLt →
    (∀ y, y ∈ l1 ↔ y ∈ l2) → l1 = l2
  | [], [], _, _, _ => rfl
  | [], y :: ys, _, _, hm => absurd ((hm y).mpr (List.mem_cons_self y ys)) (List.not_mem_nil y)
  | x :: xs, [], _, _, hm => absurd ((hm x).mp (List.mem_cons_self x xs)) (List.not_mem_nil x)
  | x :: xs, y :: ys, h1, h2, hm => by
    obtain ⟨h1x, h1xs⟩ := List.pairwise_cons.mp h1
    obtain ⟨h2y, h2ys⟩ := List.pairwise_cons.mp h2
    have hxy : x = y := by
      rcases List.mem_cons.mp ((hm x).mp (List.mem_cons_self x xs)) with e | hx2
      · exact e
      · rcases List.mem_cons.mp ((hm y).mpr (List.mem_cons_self y ys)) with e | hy2
        · exact e.symm
        · exact absurd (h1x y hy2) (fun hh => tyLt_asymm hh (h2y x hx2))
    subst hxy
    have ht : xs = ys := by
      refine sorted_ext xs ys h1xs h2ys fun z => ⟨fun hz => ?_, fun hz => ?_⟩
      · rcases List.mem_cons.mp ((hm z).mp (List.mem_cons_of_mem x hz)) with e | h3
        · subst e
          exact absurd (h1x z hz) (tyLt_irrefl z)
        · exact h3
      · rcases List.mem_cons.mp ((hm z).mpr (List.mem_cons_of_mem x hz)) with e | h3
        · subst e
          exact absurd (h2y z hz) (tyLt_irrefl z)
        · exact h3
    rw [ht]

theorem mem_foldl_insertTy (y : Ty) :
    ∀ ns s : List Ty, y ∈ ns.foldl (fun s n => insertTy n s) s ↔ y ∈ ns ∨ y ∈ s
  | [], s => by simp
  | n :: ns, s => by
    simp only [List.foldl_cons, mem_foldl_insertTy y ns (insertTy n s), mem_insertTy n y s,
      List.mem_cons]
    tauto

theorem pairwise_foldl_insertTy :
    ∀ ns s : List Ty, s.Pairwise tyLt → (ns.foldl (fun s n => insertTy n s) s).Pairwise tyLt
  | [], _, hs => hs
  | n :: ns, s, hs => by
    rw [List.foldl_cons]
    exact pairwise_foldl_insertTy ns _ (pairwise_insertTy n s hs)

theorem insertFlat_not_union (s : List Ty) (t : Ty) (h : t.isUnion = false) :
    insertFlat s t = insertTy t s ∧ expandOne t = [t] := by
  cases t
  case union ns => simp [Ty.isUnion] at h
  all_goals exact ⟨rfl, rfl⟩

theorem mem_insertFlat (y : Ty) (s : List Ty) (t : Ty) :
    y ∈ insertFlat s t ↔ y ∈ expandOne t ∨ y ∈ s := by
  rcases ht : t.isUnion with _ | _
  · obtain ⟨e1, e2⟩ := insertFlat_not_union s t ht
    rw [e1, e2, mem_insertTy]
    simp
  · cases t
    case union ns => exact mem_foldl_insertTy y ns s
    all_goals exact nomatch ht

theorem pairwise_insertFlat (s : List Ty) (t : Ty) (hs : s.Pairwise tyLt) :
    (insertFlat s t).Pairwise tyLt := by
  cases t
  case union ns => exact pairwise_foldl_insertTy ns s hs
  all_goals exact pairwise_insertTy _ s hs

theorem mem_foldl_insertFlat (y : Ty) :
    ∀ ts s : List Ty, y ∈ ts.foldl insertFlat s ↔ y ∈ flattenOnce ts ∨ y ∈ s
  | [], s => by simp [flattenOnce]
  | t :: ts, s => by
    simp only [List.foldl_cons, mem_foldl_insertFlat y ts (insertFlat s t),
      mem_insertFlat y s t, flattenOnce, List.flatMap_cons, List.mem_append]
    rw [show (ts.flatMap expandOne) = flattenOnce ts from rfl]
    tauto

theorem pairwise_foldl_insertFlat :
    ∀ ts s : List Ty, s.Pairwise tyLt → (ts.foldl insertFlat s).Pairwise tyLt
  | [], _, hs => hs
  | t :: ts, s, hs => by
    rw [List.foldl_cons]
    exact pairwise_foldl_insertFlat ts _ (pairwise_insertFlat s t hs)

theorem foldl_insertTy_of_sorted (u : List Ty) (hu : u.Pairwise tyLt) :
    u.foldl (fun s n => insertTy n s) [] = u :=
  sorted_ext _ u (pairwise_foldl_insertTy u [] List.Pairwise.nil) hu
    (fun y => by simp [mem_foldl_insertTy y u []])

theorem union_of_eq (types : List Ty) (h : types ≠ []) :
    Ty.union_of types = collapse (types.foldl insertFlat []) := by
  rw [Ty.union_of, if_neg]
  simpa using h

/-- C4 (amended): for input sequences in which no element is a `Union`
itself containing a `Union` member, the result of `union_of`, when it is a
`Union`, has a strictly sorted member list (in the total order on `Type`),
with no two structurally equal members and no `Union` member.  (In general
`union_of` flattens `Union` arguments only one level, so a `Union` nested
two levels deep survives into the result — see the counterexample.) -/
theorem C4_union_canonical (xs : List Ty) (h : ∀ m ∈ flattenOnce xs, m.isUnion = false) :
    ∀ ms, Ty.union_of xs = .union ms →
      ms.Pairwise tyLt ∧ ms.Nodup ∧ ∀ m ∈ ms, m.isUnion = false := by
  intro ms hms
  rcases Decidable.em (xs = []) with rfl | hne
  · exact absurd hms (by simp [Ty.union_of])
  · rw [union_of_eq xs hne] at hms
    have hpw : (xs.foldl insertFlat []).Pairwise tyLt :=
      pairwise_foldl_insertFlat xs [] List.Pairwise.nil
    have hmem : ∀ y, y ∈ xs.foldl insertFlat [] ↔ y ∈ flattenOnce xs := fun y => by
      simpa using mem_foldl_insertFlat y xs []
    rcases e : xs.foldl insertFlat [] with _ | ⟨t, _ | ⟨t2, rest⟩⟩
    · rw [e] at hms
      have hms' : Ty.union [] = Ty.union ms := hms
      injection hms' with e2
      subst e2
      exact ⟨List.Pairwise.nil, List.nodup_nil, by simp⟩
    · rw [e] at hms
      have hms' : t = Ty.union ms := hms
      have ht : t ∈ flattenOnce xs := (hmem t).mp (by rw [e]; exact List.mem_singleton_self t)
      have htu := h t ht
      rw [hms'] at htu
      simp [Ty.isUnion] at htu
    · rw [e] at hms
      have hms' : Ty.union (t :: t2 :: rest) = Ty.union ms := hms
      injection hms' with e2
      subst e2
      rw [e] at hpw
      refine ⟨hpw, ?_, ?_⟩
      · exact hpw.imp fun hab ee => absurd (ee ▸ hab) (tyLt_irrefl _)
      · intro m hm
        have hmf : m ∈ flattenOnce xs := (hmem m).mp (by rw [e]; exact hm)
        exact h m hmf

/-- C4 witness: a concrete instance of the amended claim. -/
theorem C4_union_canonical_witness :
    [Ty.int, Ty.str].Pairwise tyLt ∧ [Ty.int, Ty.str].Nodup ∧
      ∀ m ∈ [Ty.int, Ty.str], m.isUnion = false :=
  C4_union_canonical [Ty.str, Ty.int] (by decide) [Ty.int, Ty.str] (by decide)

/-- C4 counterexample: a `Union` nested two levels deep in the input is
flattened only one level, so the canonical result still holds a `Union`
member, refuting the claim as stated. -/
theorem C4_counterexample :
    Ty.union_of [Ty.union [Ty.union [Ty.int, Ty.str], Ty.bool]]
        = Ty.union [Ty.bool, Ty.union [Ty.int, Ty.str]] ∧
    (Ty.union [Ty.bool, Ty.union [Ty.int, Ty.str]]).unionMembers.any Ty.isUnion = true := by
  decide

/-- C5 (amended): `union_of` is permutation-invariant unconditionally, and
`union_of [union_of xs] = union_of xs` holds whenever no element of `xs`
is a `Union` itself containing a `Union` member (one-level flattening makes
doubly nested unions break idempotence — see the counterexample). -/
theorem C5_union_of_perm_idem :
    (∀ xs ys : List Ty, xs.Perm ys → Ty.union_of xs = Ty.union_of ys) ∧
    (∀ xs : List Ty, (∀ m ∈ flattenOnce xs, m.isUnion = false) →
      Ty.union_of [Ty.union_of xs] = Ty.union_of xs) := by
  constructor
  · intro xs ys hperm
    rcases Decidable.em (xs = []) with rfl | hne
    · have e : ys = [] := hperm.symm.eq_nil
      subst e
      rfl
    · have hne2 : ys ≠ [] := fun e => hne (by subst e; exact hperm.eq_nil)
      rw [union_of_eq xs hne, union_of_eq ys hne2]
      have hset : xs.foldl insertFlat [] = ys.foldl insertFlat [] := by
        apply sorted_ext _ _ (pairwise_foldl_insertFlat xs [] List.Pairwise.nil)
          (pairwise_foldl_insertFlat ys [] List.Pairwise.nil)
        intro y
        rw [mem_foldl_insertFlat y xs [], mem_foldl_insertFlat y ys []]
        simp only [flattenOnce, List.mem_flatMap]
        constructor
        · rintro (⟨t, ht, hyt⟩ | h2)
          · exact Or.inl ⟨t, hperm.mem_iff.mp ht, hyt⟩
          · exact Or.inr h2
        · rintro (⟨t, ht, hyt⟩ | h2)
          · exact Or.inl ⟨t, hperm.mem_iff.mpr ht, hyt⟩
          · exact Or.inr h2
      rw [hset]
  · intro xs h
    rcases Decidable.em (xs = []) with rfl | hne
    · decide
    · rw [union_of_eq xs hne]
      have hpw : (xs.foldl insertFlat []).Pairwise tyLt :=
        pairwise_foldl_insertFlat xs [] List.Pairwise.nil
      have hmem : ∀ y, y ∈ xs.foldl insertFlat [] ↔ y ∈ flattenOnce xs := fun y => by
        simpa using mem_foldl_insertFlat y xs []
      rcases e : xs.foldl insertFlat [] with _ | ⟨t, _ | ⟨t2, rest⟩⟩
      · decide
      · show Ty.union_of [t] = t
        have ht : t ∈ flattenOnce xs := (hmem t).mp (by rw [e]; exact List.mem_singleton_self t)
        have htu := h t ht
        obtain ⟨e1, _⟩ := insertFlat_not_union [] t htu
        rw [union_of_eq [t] (by simp), List.foldl_cons, List.foldl_nil, e1]
        rfl
      · show Ty.union_of [Ty.union (t :: t2 :: rest)] = Ty.union (t :: t2 :: rest)
        rw [union_of_eq _ (by simp), List.foldl_cons, List.foldl_nil]
        show collapse ((t :: t2 :: rest).foldl (fun s n => insertTy n s) []) = _
        rw [e] at hpw
        rw [foldl_insertTy_of_sorted _ hpw]
        rfl

/-- C5 witness: concrete instances of both amended parts. -/
theorem C5_union_of_perm_idem_witness :
    Ty.union_of [Ty.int, Ty.str] = Ty.union_of [Ty.str, Ty.int] ∧
    Ty.union_of [Ty.union_of [Ty.int, Ty.str]] = Ty.union_of [Ty.int, Ty.str] :=
  ⟨C5_union_of_perm_idem.1 _ _ (by decide), C5_union_of_perm_idem.2 _ (by decide)⟩

/-- C5 counterexample: idempotence fails as stated — a doubly nested
`Union` survives one solve but is flattened and re-sorted by the second
application. -/
theorem C5_counterexample :
    Ty.union_of [Ty.union_of [Ty.union [Ty.union [Ty.str, Ty.int]]]] ≠
      Ty.union_of [Ty.union [Ty.union [Ty.str, Ty.int]]] := by
  decide

/-- C6 (amended): `union_of []` is `Unknown` and `union_of [Int, Int]`
collapses to `Int`; whenever the one-level flattening of the input is
nonempty and contains no `Union`, the result is never a `Union` with zero
or one member.  (Degenerate inputs do break the unconditional claim:
see the counterexample.) -/
theorem C6_union_never_small :
    (∀ xs ms, (∀ m ∈ flattenOnce xs, m.isUnion = false) → flattenOnce xs ≠ [] →
      Ty.union_of xs = .union ms → 2 ≤ ms.length) ∧
    Ty.union_of [] = Ty.unknown ∧
    Ty.union_of [Ty.int, Ty.int] = Ty.int := by
  refine ⟨?_, rfl, by decide⟩
  intro xs ms h hne hms
  have hxs : xs ≠ [] := by
    intro e
    subst e
    exact hne rfl
  rw [union_of_eq xs hxs] at hms
  have hmem : ∀ y, y ∈ xs.foldl insertFlat [] ↔ y ∈ flattenOnce xs := fun y => by
    simpa using mem_foldl_insertFlat y xs []
  rcases e : xs.foldl insertFlat [] with _ | ⟨t, _ | ⟨t2, rest⟩⟩
  · rcases List.exists_mem_of_ne_nil _ hne with ⟨y, hy⟩
    have hy2 : y ∈ xs.foldl insertFlat [] := (hmem y).mpr hy
    rw [e] at hy2
    exact absurd hy2 (List.not_mem_nil y)
  · rw [e] at hms
    have hms' : t = Ty.union ms := hms
    have ht : t ∈ flattenOnce xs := (hmem t).mp (by rw [e]; exact List.mem_singleton_self t)
    have htu := h t ht
    rw [hms'] at htu
    simp [Ty.isUnion] at htu
  · rw [e] at hms
    have hms' : Ty.union (t :: t2 :: rest) = Ty.union ms := hms
    injection hms' with e2
    subst e2
    simp

/-- C6 witness: a concrete instance of the amended claim. -/
theorem C6_union_never_small_witness : 2 ≤ [Ty.int, Ty.str].length :=
  C6_union_never_small.1 [Ty.int, Ty.str] [Ty.int, Ty.str] (by decide) (by decide) (by decide)

/-- C6 counterexample: a nonempty input whose flattening is empty yields
`Union([])`, and a doubly nested singleton `Union` passes through as a
one-member `Union`, refuting "never zero or one member" as stated. -/
theorem C6_counterexample :
    Ty.union_of [Ty.union []] = Ty.union [] ∧
    Ty.union_of [Ty.union [Ty.union [Ty.int]]] = Ty.union [Ty.int] := by
  decide

/-- C7: the embedded `Ord` comparison is a total order consistent with the
embedded structural equality: `cmp a b = Equal` iff `a == b` (the
`PartialEq` embedding) iff `a = b`; swapping the arguments swaps the
ordering (antisymmetry/connexity) and the strict order is transitive; two
types of differing variants are ordered purely by the fixed variant
precedence `Unknown < None < Any < Bool < Int < Float < Str < Bytes < List
< Dict < Tuple < Set < Function < Union < Var < Named < Generic` (the
ranks 0..16); and two types of the same variant are compared
lexicographically/structurally on their sub-parts. -/
theorem C7_cmp_total_order :
    (∀ a b : Ty, Ty.cmp a b = .eq ↔ Ty.eqv a b = true) ∧
    (∀ a b : Ty, Ty.eqv a b = true ↔ a = b) ∧
    (∀ a b : Ty, (Ty.cmp a b).swap = Ty.cmp b a) ∧
    (∀ a b c : Ty, Ty.cmp a b = .lt → Ty.cmp b c = .lt → Ty.cmp a c = .lt) ∧
    (∀ a b : Ty, Ty.rank a ≠ Ty.rank b → Ty.cmp a b = natCmp (Ty.rank a) (Ty.rank b)) ∧
    (∀ x y, Ty.cmp (.list x) (.list y) = Ty.cmp x y) ∧
    (∀ ak av bk bv, Ty.cmp (.dict ak av) (.dict bk bv) = (Ty.cmp ak bk).then (Ty.cmp av bv)) ∧
    (∀ xs ys, Ty.cmp (.tuple xs) (.tuple ys) = Ty.cmpList xs ys) ∧
    (∀ x y, Ty.cmp (.set x) (.set y) = Ty.cmp x y) ∧
    (∀ ap ar bp br, Ty.cmp (.function ap ar) (.function bp br)
      = (Ty.cmpList ap bp).then (Ty.cmp ar br)) ∧
    (∀ xs ys, Ty.cmp (.union xs) (.union ys) = Ty.cmpList xs ys) ∧
    (∀ v w, Ty.cmp (.var v) (.var w) = natCmp v w) ∧
    (∀ n m, Ty.cmp (.named n) (.named m) = natsCmp n m) ∧
    (∀ an ap bn bp, Ty.cmp (.generic an ap) (.generic bn bp)
      = (natsCmp an bn).then (Ty.cmpList ap bp)) :=
  ⟨fun a b => (Ty.cmp_eq_iff a b).trans (Ty.eqv_iff a b).symm,
   Ty.eqv_iff,
   Ty.cmp_swap,
   fun _ _ _ h1 h2 => Ty.cmp_lt_trans h1 h2,
   Ty.cmp_of_rank_ne,
   fun _ _ => rfl, fun _ _ _ _ => rfl, fun _ _ => rfl, fun _ _ => rfl,
   fun _ _ _ _ => rfl, fun _ _ => rfl, fun _ _ => rfl, fun _ _ => rfl,
   fun _ _ _ _ => rfl⟩

/-- C7 witness: the transitivity and variant-precedence parts applied at
concrete types. -/
theorem C7_cmp_total_order_witness :
    Ty.cmp Ty.bool Ty.str = .lt ∧
    Ty.cmp Ty.int Ty.str = natCmp (Ty.rank Ty.int) (Ty.rank Ty.str) :=
  ⟨C7_cmp_total_order.2.2.2.1 Ty.bool Ty.int Ty.str (by decide) (by decide),
   C7_cmp_total_order.2.2.2.2.1 Ty.int Ty.str (by decide)⟩

/-- C8: with `x` bound to `Int` in a parent environment, nesting a child
and binding `x` to `Str` there makes the child's lookup of `x` return
`Str`, while the parent (and with it every ancestor binding) is held
unchanged inside the child; `bind` touches only the current scope's map,
and `lookup` consults the current scope's map first, then the parent
chain, and returns `none` when no scope binds the name. -/
theorem C8_env_shadowing (p : TypeEnv) (hp : p.lookup "x" = some Ty.int) :
    (((TypeEnv.nested p).bind "x" Ty.str).2).lookup "x" = some Ty.str ∧
    (((TypeEnv.nested p).bind "x" Ty.str).2).parent = some p ∧
    p.lookup "x" = some Ty.int ∧
    (∀ (e : TypeEnv) (n : String) (t : Ty), ((e.bind n t).2).parent = e.parent) ∧
    (∀ (b : List (String × Ty)) (par : Option TypeEnv) (n : String) (t : Ty),
      mapGet b n = some t → TypeEnv.lookup (.mk b par) n = some t) ∧
    (∀ (b : List (String × Ty)) (q : TypeEnv) (n : String),
      mapGet b n = Option.none → TypeEnv.lookup (.mk b (some q)) n = q.lookup n) ∧
    (∀ (b : List (String × Ty)) (n : String),
      mapGet b n = Option.none → TypeEnv.lookup (.mk b Option.none) n = Option.none) := by
  refine ⟨?_, rfl, hp, ?_, ?_, ?_, ?_⟩
  · simp [TypeEnv.nested, TypeEnv.bind, TypeEnv.lookup, mapInsert, mapGet]
  · intro e n t
    cases e
    rfl
  · intro b par n t h
    cases par <;> simp [TypeEnv.lookup, h]
  · intro b q n h
    simp [TypeEnv.lookup, h]
  · intro b n h
    simp [TypeEnv.lookup, h]

/-- C8 witness: the shadowing conclusion at a concrete parent binding
`x -> Int`. -/
theorem C8_env_shadowing_witness :
    (((TypeEnv.nested ((TypeEnv.new.bind "x" Ty.int).2)).bind "x" Ty.str).2).lookup "x"
      = some Ty.str :=
  (C8_env_shadowing ((TypeEnv.new.bind "x" Ty.int).2) (by decide)).1

/-- C9: observing the same variable as `Int` and then `Str` across two
samples keeps both observations in the trace, and the spec-modelled
resolution step reports their canonical union `Union([Int, Str])`, never
the last-seen observation alone. -/
theorem C9_observation_merge (name : String) :
    resolvedVariableType ((TypeTrace.empty.add_variable name Ty.int).add_variable name Ty.str)
        name = Ty.union [Ty.int, Ty.str] ∧
    Ty.union [Ty.int, Ty.str] ≠ Ty.str := by
  constructor
  · simp [resolvedVariableType, TypeTrace.get_variable_types, TypeTrace.add_variable,
      TypeTrace.empty]
    decide
  · decide

theorem solve_constraint_ok (s : ConstraintSolver) (c : Constraint) :
    s.solve_constraint c = .ok s := by
  cases c <;> rfl

theorem solveGo_ok : ∀ (cs : List Constraint) (s : ConstraintSolver),
    ConstraintSolver.solveGo cs s = .ok s.substitution
  | [], _ => rfl
  | c :: rest, s => by
    rw [ConstraintSolver.solveGo, solve_constraint_ok]
    exact solveGo_ok rest s

theorem foldl_add_substitution : ∀ (cs : List Constraint) (s : ConstraintSolver),
    (cs.foldl ConstraintSolver.add_constraint s).substitution = s.substitution
  | [], _ => rfl
  | c :: rest, s => by
    rw [List.foldl_cons]
    exact foldl_add_substitution rest _

/-- C10: with `unify`, `subtype` and `occurs_check` all left as `TODO`
stubs returning `Ok(())`, `solve` terminates successfully on every finite
sequence of constraints added to a fresh solver and returns the untouched,
empty substitution: no constraint binds a variable, extends the
substitution, or is rejected. -/
theorem C10_solve_stub_empty (cs : List Constraint) :
    (cs.foldl ConstraintSolver.add_constraint ConstraintSolver.new).solve = .ok [] := by
  rw [ConstraintSolver.solve, solveGo_ok]
  show Except.ok (cs.foldl ConstraintSolver.add_constraint ConstraintSolver.new).substitution
    = Except.ok []
  rw [foldl_add_substitution]
  rfl

/-- C1 (code evaluation at the failing input): adding
`Equal(Var(v), List(Var(v)))` to a fresh solver and solving returns `Ok`
with the empty substitution for every `v` — the occurs check is an
unimplemented stub, so the `InfiniteType` error the claim (and the
solver's own documentation) requires is never produced. -/
theorem C1_occurs_check_stubbed (v : Nat) :
    (ConstraintSolver.new.add_constraint (.equal (.var v) (.list (.var v)))).solve
      = .ok [] := rfl

/-- C2 (code evaluation at the failing input): adding `Equal(Int, Str)` to
a fresh solver and solving returns `Ok` with the empty substitution —
`unify` is an unimplemented stub, so the `Mismatch` error the claim
requires is never produced and `solve` in fact never returns an error. -/
theorem C2_unify_stubbed :
    (ConstraintSolver.new.add_constraint (.equal Ty.int Ty.str)).solve = .ok [] := rfl

/-- C3 (code evaluation at the failing input): after `Equal(Var(0), Int)`
and `Equal(Var(0), Var(1))`, solving returns the empty substitution, in
which walking `Var(0)` or `Var(1)` cannot resolve to `Int` — `unify` is an
unimplemented stub and never extends the substitution. -/
theorem C3_binding_not_propagated :
    ((ConstraintSolver.new.add_constraint (.equal (.var 0) Ty.int)).add_constraint
        (.equal (.var 0) (.var 1))).solve = .ok [] := rfl
